import Mathlib

/-!
Shallow embedding of the geometry-buffer layer of the `athena` repository
(`src/athena/geom.py` and `src/athena/geomview.py`): the strided attribute
decoder (`iterAttr`, two variants), the attribute packer (`buildVertexAttrs`),
the chunking helpers (`grouper`, two variants), the bounding-box computations
(`AABB.__init__`, `compute_AABB`, `AABB.iterCorners`) and the affine
corner-fit solver (`transformBetween`).

Machine scalars in buffers are modelled at the bit-pattern level: a scalar of
byte width `w` is the natural number below `2^(8*w)` given by its `w`
little-endian bytes, exactly as `numpy.tobytes` / `struct.unpack` lay them out
on a little-endian host.  Point coordinates are modelled as rationals; the
`min`/`max`/affine arithmetic of the source is exact on them.  Python errors
raised by the modelled code are explicit `PyErr` values.
-/

/-- Error values observable from the modelled Python code.  `structError` is
the `struct.error` raised by `struct.unpack` on a short buffer;
`stopIteration` is the `StopIteration` escaping `next(it)`;
`outOfBoundsError` and `emptyInputError` are the error kinds the specification
prescribes (the source never constructs them, but they are needed to state
the specification's claims). -/
inductive PyErr where
  | structError
  | stopIteration
  | outOfBoundsError
  | emptyInputError
deriving DecidableEq, Repr

/-- The base types enumeration (`Qt3DRender.QAttribute.VertexBaseType`),
mirrored from the `basetype_data` table of `geom.py`. -/
inductive BaseType where
  | Byte
  | UnsignedByte
  | Short
  | UnsignedShort
  | Int
  | UnsignedInt
  | HalfFloat
  | Float
  | Double
deriving DecidableEq, Repr

/-- Map of base types to byte widths (`basetype_widths` in the source). -/
def BaseType.width : BaseType → Nat
  | .Byte => 1
  | .UnsignedByte => 1
  | .Short => 2
  | .UnsignedShort => 2
  | .Int => 4
  | .UnsignedInt => 4
  | .HalfFloat => 2
  | .Float => 4
  | .Double => 8

theorem BaseType.width_pos (bt : BaseType) : 0 < bt.width := by
  cases bt <;> decide

/-- Little-endian byte serialization of one scalar bit pattern of byte width
`w` (what `numpy.ndarray.tobytes` emits per scalar on a little-endian host). -/
def leBytes : Nat → Nat → List Nat
  | 0, _ => []
  | w + 1, v => v % 256 :: leBytes w (v / 256)

/-- Little-endian byte deserialization of one scalar bit pattern (what one
`struct.unpack` code reads, at the bit-pattern level). -/
def leDecode : List Nat → Nat
  | [] => 0
  | b :: bs => b + 256 * leDecode bs

theorem leBytes_length (w v : Nat) : (leBytes w v).length = w := by
  induction w generalizing v with
  | zero => rfl
  | succ w ih => simp [leBytes, ih]

theorem leDecode_leBytes (w v : Nat) (h : v < 256 ^ w) :
    leDecode (leBytes w v) = v := by
  induction w generalizing v with
  | zero => simpa [leBytes, leDecode] using (Nat.lt_one_iff.mp (by simpa using h)).symm
  | succ w ih =>
      have hdiv : v / 256 < 256 ^ w := by
        rw [Nat.div_lt_iff_lt_mul (by norm_num)]
        calc v < 256 ^ (w + 1) := h
        _ = 256 ^ w * 256 := by ring
      simp [leBytes, leDecode, ih _ hdiv]
      omega

/-- Model of a `Qt3DRender.QAttribute` together with the byte content of its
bound `QBuffer` (`att.buffer().data().data()`). -/
structure Attr where
  name : String
  vertexBaseType : BaseType
  byteOffset : Nat
  byteStride : Nat
  count : Nat
  vertexSize : Nat
  bufferData : List Nat
deriving DecidableEq, Repr

/-- Effective stride after the zero-stride substitution both decoders make
(`if byteStride == 0: byteStride = width`). -/
def effStride (att : Attr) : Nat :=
  if att.byteStride = 0 then att.vertexBaseType.width else att.byteStride

/-- Zero-vertex-size substitution in `geom.iterAttr`
(`if vertex_size == 0: vertex_size = 1`). -/
def effVsGeom (att : Attr) : Nat :=
  if att.vertexSize = 0 then 1 else att.vertexSize

/-- Zero-vertex-size substitution in `geomview.iterAttr`
(`if vertex_size == 0: vertex_size = width`). -/
def effVsView (att : Attr) : Nat :=
  if att.vertexSize = 0 then att.vertexBaseType.width else att.vertexSize

/-- The byte positions visited by the loop
`for i in range(byteOffset, byteOffset + byteStride*count, byteStride)`
(the effective stride is positive, so the range has exactly `count` items). -/
def attrIndices (att : Attr) : List Nat :=
  (List.range att.count).map fun k => att.byteOffset + k * effStride att

/-- One datum of `geom.iterAttr`:
`struct.unpack(struct_code*vertex_size, bytes(att_data[i:i+(width*vertex_size)]))`.
The Python slice truncates silently; `struct.unpack` raises `struct.error`
unless the slice has exactly the requested length. -/
def datumGeom (buf : List Nat) (w vs i : Nat) : Except PyErr (List Nat) :=
  let s := (buf.drop i).take (w * vs)
  if s.length = w * vs then
    .ok ((List.range vs).map fun j => leDecode ((s.drop (j * w)).take w))
  else
    .error .structError

/-- Components of one datum of `geomview.iterAttr`, which unpacks each scalar
through its own slice
`struct.unpack(struct_code, bytes(att_data[i+j*width : i+j*width+width]))[0]`,
failing at the first component whose slice is short. -/
def datumViewAux (buf : List Nat) (w i : Nat) : List Nat → Except PyErr (List Nat)
  | [] => .ok []
  | j :: js =>
      let s := (buf.drop (i + j * w)).take w
      if s.length = w then
        match datumViewAux buf w i js with
        | .ok rest => .ok (leDecode s :: rest)
        | .error e => .error e
      else
        .error .structError

/-- One datum of `geomview.iterAttr` (a list comprehension over
`j in range(vertex_size)`). -/
def datumView (buf : List Nat) (w vs i : Nat) : Except PyErr (List Nat) :=
  datumViewAux buf w i (List.range vs)

/-- Run a generator that yields one datum per byte position: the output is the
list of successfully yielded tuples together with the error, if any, that
terminated the iteration. -/
def runAttr (datum : Nat → Except PyErr (List Nat)) : List Nat → List (List Nat) × Option PyErr
  | [] => ([], none)
  | i :: is =>
      match datum i with
      | .error e => ([], some e)
      | .ok d =>
          let r := runAttr datum is
          (d :: r.1, r.2)

namespace geom

/-- Model of `geom.iterAttr`: the full run of the generator over a
`QAttribute`, as the sequence of yielded tuples plus the terminating error,
if any. -/
def iterAttr (att : Attr) : List (List Nat) × Option PyErr :=
  runAttr (datumGeom att.bufferData att.vertexBaseType.width (effVsGeom att)) (attrIndices att)

end geom

namespace geomview

/-- Model of `geomview.iterAttr`: like `geom.iterAttr` but with the
width-of-basetype substitution for a zero vertex size and per-component
unpacking. -/
def iterAttr (att : Attr) : List (List Nat) × Option PyErr :=
  runAttr (datumView att.bufferData att.vertexBaseType.width (effVsView att)) (attrIndices att)

end geomview

/-- Model of `AttrSpec = namedtuple('AttrSpec', 'name, column, numcols')`. -/
structure AttrSpec where
  name : String
  column : Nat
  numcols : Nat
deriving DecidableEq, Repr

/-- Model of `geom.buildVertexAttrs`: pack a rectangular array (rows of scalar
bit patterns, shared dtype `bt`) into one buffer and describe each attrspec's
column range as an attribute over that buffer.  `rows = len(array)`,
`columns = len(array[0])`, the buffer is `array.tobytes()` (row-major,
little-endian scalars), each attribute gets stride `columns * width`, offset
`column * width`, vertex size `numcols` and count `rows`. -/
def buildVertexAttrs (array : List (List Nat)) (bt : BaseType) (attrspecs : List AttrSpec) : List Attr :=
  let rows := array.length
  let columns := (array.headD []).length
  let w := bt.width
  let row_width := columns * w
  let rawstring := array.flatten.flatMap (leBytes w)
  attrspecs.map fun asp =>
    { name := asp.name
      vertexBaseType := bt
      vertexSize := asp.numcols
      byteStride := row_width
      byteOffset := asp.column * w
      count := rows
      bufferData := rawstring }

namespace geom

/-- Model of `geom.grouper`: `itertools.zip_longest` over `n` references to
one iterator yields `n`-sized groups, the final short group padded with the
missing-value sentinel (`None`, modelled as `Option.none`). -/
def grouper (l : List α) (n : Nat) : List (List (Option α)) :=
  if hn : n = 0 then []
  else
    match l with
    | [] => []
    | x :: xs =>
        (((x :: xs).take n).map some ++ List.replicate (n - (x :: xs).length) none)
          :: grouper ((x :: xs).drop n) n
termination_by l.length
decreasing_by
  have hpos : 0 < n := Nat.pos_of_ne_zero hn
  simp only [List.length_drop, List.length_cons]
  omega

end geom

namespace geomview

/-- Model of `geomview.grouper`:
`iter(lambda: list(itertools.islice(iter(i), n)), [])` yields `n`-sized
chunks and stops at the first empty chunk, so the final short group is kept
unpadded and nothing is yielded past the end. -/
def grouper (l : List α) (n : Nat) : List (List α) :=
  if hn : n = 0 then []
  else
    match l with
    | [] => []
    | x :: xs => (x :: xs).take n :: grouper ((x :: xs).drop n) n
termination_by l.length
decreasing_by
  have hpos : 0 < n := Nat.pos_of_ne_zero hn
  simp only [List.length_drop, List.length_cons]
  omega

end geomview

/-- A 3-component point, modelling `QVector3D` with exact rational
coordinates (the source's `min`/`max`/affine arithmetic is modelled
exactly). -/
structure Vec3 where
  x : ℚ
  y : ℚ
  z : ℚ
deriving DecidableEq, Repr

/-- The bounding box state built by `geom.AABB.__init__`: `min`, `max` and
the derived `center = (min+max)/2`. -/
structure AABB where
  min : Vec3
  max : Vec3
  center : Vec3
deriving DecidableEq, Repr

/-- The per-point update of the `for v in it` loop shared by
`geom.AABB.__init__` and `geomview.compute_AABB`: fold the running
componentwise minimum and maximum with one more point. -/
def foldMinMax (mm : Vec3 × Vec3) (v : Vec3) : Vec3 × Vec3 :=
  (⟨min mm.1.x v.x, min mm.1.y v.y, min mm.1.z v.z⟩,
   ⟨max mm.2.x v.x, max mm.2.y v.y, max mm.2.z v.z⟩)

/-- Model of `geom.AABB.__init__` on the decoded vertex sequence: `next(it)`
on an empty sequence raises `StopIteration`; otherwise the first point is
both initial `min` and `max` and the remaining points are folded in
componentwise, with `center = (min+max)/2` derived at the end. -/
def AABB.ofPoints : List Vec3 → Except PyErr AABB
  | [] => .error .stopIteration
  | v0 :: rest =>
      let mm := rest.foldl foldMinMax (v0, v0)
      .ok ⟨mm.1, mm.2,
        ⟨(mm.1.x + mm.2.x) / 2, (mm.1.y + mm.2.y) / 2, (mm.1.z + mm.2.z) / 2⟩⟩

/-- Model of `geom.AABB.iterCorners`: the nested loops
`for x in [min.x, max.x]: for y in [min.y, max.y]: for z in [min.z, max.z]`
yield the eight corners with x varying slowest and z fastest. -/
def AABB.iterCorners (b : AABB) : List Vec3 :=
  [b.min.x, b.max.x].flatMap fun x =>
    [b.min.y, b.max.y].flatMap fun y =>
      [b.min.z, b.max.z].map fun z => ⟨x, y, z⟩

/-- Model of `geom.AABB.dimensions`: `max - min` componentwise. -/
def AABB.dimensions (b : AABB) : ℚ × ℚ × ℚ :=
  (b.max.x - b.min.x, b.max.y - b.min.y, b.max.z - b.min.z)

/-- Corner `i` of a box, in the positional order of `AABB.iterCorners`. -/
def AABB.corner (b : AABB) (i : Fin 8) : Vec3 :=
  b.iterCorners.getD i ⟨0, 0, 0⟩

namespace geomview

/-- Model of `geomview.compute_AABB` on the decoded vertex sequence: both
accumulators start at `vec3d()` (the zero vector) and every vertex is folded
in componentwise; the `(minimums, maximums)` pair is returned. -/
def compute_AABB (pts : List Vec3) : Vec3 × Vec3 :=
  pts.foldl foldMinMax (⟨0, 0, 0⟩, ⟨0, 0, 0⟩)

end geomview

/-- Corner coordinate matrix of a box
(`np.array(list(aabb.iterCorners(cons=lambda *x: np.array([*x]))))`):
row `i` is corner `i`, columns are x, y, z. -/
def npCoords (b : AABB) : Matrix (Fin 8) (Fin 3) ℚ :=
  Matrix.of fun i j => ![(b.corner i).x, (b.corner i).y, (b.corner i).z] j

/-- Average of the X-scale and Y-scale ratios computed in the flat-box branch
of `geom.transformBetween`:
`ratio = (span_to[0]/span_from[0] + span_to[1]/span_from[1]) / 2`. -/
def avgRatio (b1 b2 : AABB) : ℚ :=
  (b2.dimensions.1 / b1.dimensions.1 + b2.dimensions.2.1 / b1.dimensions.2.1) / 2

/-- The corner matrices used by `geom.transformBetween` after its flatness
correction: if every z entry of both corner matrices is zero, the z column of
`coord_from` is overwritten with `-1` on the even (minimum-z) rows and `1` on
the odd rows, and the z column of `coord_to` with `-ratio`/`ratio`
likewise; otherwise the corner matrices are used unchanged. -/
def coordsPair (b1 b2 : AABB) : Matrix (Fin 8) (Fin 3) ℚ × Matrix (Fin 8) (Fin 3) ℚ :=
  let cf := npCoords b1
  let ct := npCoords b2
  if (∀ i, ct i 2 = 0) ∧ (∀ i, cf i 2 = 0) then
    let ratio := avgRatio b1 b2
    (Matrix.of fun i j => if j = 2 then (if i.val % 2 = 0 then -1 else 1) else cf i j,
     Matrix.of fun i j => if j = 2 then (if i.val % 2 = 0 then -ratio else ratio) else ct i j)
  else (cf, ct)

/-- Homogeneous padding of a corner matrix
(`pad = lambda x: np.hstack([x, np.ones((x.shape[0], 1))])`). -/
def padM (M : Matrix (Fin 8) (Fin 3) ℚ) : Matrix (Fin 8) (Fin 4) ℚ :=
  Matrix.of fun i j => if h : (j : Nat) < 3 then M i ⟨j, h⟩ else 1

/-- The homogeneous source matrix `X` of `geom.transformBetween`. -/
def transformX (b1 b2 : AABB) : Matrix (Fin 8) (Fin 4) ℚ :=
  padM (coordsPair b1 b2).1

/-- The homogeneous target matrix `Y` of `geom.transformBetween`. -/
def transformY (b1 b2 : AABB) : Matrix (Fin 8) (Fin 4) ℚ :=
  padM (coordsPair b1 b2).2

/-- Characterization of `A, _, _, _ = np.linalg.lstsq(X, Y)`: `A` minimizes
`‖X·A - Y‖`, which over the rationals is exactly the normal equations
`Xᵀ·X·A = Xᵀ·Y` (the source solves them in floating point; the model is the
exact-arithmetic idealization of that library call). -/
def lstsqSpec (X Y : Matrix (Fin 8) (Fin 4) ℚ) (A : Matrix (Fin 4) (Fin 4) ℚ) : Prop :=
  X.transpose * X * A = X.transpose * Y

/-- Homogeneous padding of a single query point, the row vector
`pad([p]) = [p.x, p.y, p.z, 1]`. -/
def padV (p : Vec3) : Fin 4 → ℚ :=
  ![p.x, p.y, p.z, 1]

/-- The closure returned by `geom.transformBetween` applied to one point:
`transform = lambda x: unpad(np.dot(pad(x), A))`. -/
def transformApply (A : Matrix (Fin 4) (Fin 4) ℚ) (p : Vec3) : Vec3 :=
  let r := Matrix.vecMul (padV p) A
  ⟨r 0, r 1, r 2⟩

/-- The exact corner-to-corner affine map between two boxes, as a homogeneous
4x4 matrix in the row-vector convention: per-axis scale
`(to.max - to.min)/(from.max - from.min)` and translation
`to.min - scale * from.min`. -/
def exactAffine (b1 b2 : AABB) : Matrix (Fin 4) (Fin 4) ℚ :=
  let sx := (b2.max.x - b2.min.x) / (b1.max.x - b1.min.x)
  let sy := (b2.max.y - b2.min.y) / (b1.max.y - b1.min.y)
  let sz := (b2.max.z - b2.min.z) / (b1.max.z - b1.min.z)
  Matrix.of
    ![![sx, 0, 0, 0],
      ![0, sy, 0, 0],
      ![0, 0, sz, 0],
      ![b2.min.x - sx * b1.min.x, b2.min.y - sy * b1.min.y, b2.min.z - sz * b1.min.z, 1]]

section FoldLemmas

theorem foldl_min_le_init (l : List ℚ) (a : ℚ) : l.foldl min a ≤ a := by
  induction l generalizing a with
  | nil => exact le_refl a
  | cons c t ih => exact le_trans (ih (min a c)) (min_le_left a c)

theorem foldl_max_init_le (l : List ℚ) (a : ℚ) : a ≤ l.foldl max a := by
  induction l generalizing a with
  | nil => exact le_refl a
  | cons c t ih => exact le_trans (le_max_left a c) (ih (max a c))

theorem foldl_min_le_mem (l : List ℚ) (a : ℚ) : ∀ b ∈ a :: l, l.foldl min a ≤ b := by
  induction l generalizing a with
  | nil => intro b hb; simp at hb; simp [hb]
  | cons c t ih =>
      intro b hb
      rcases List.mem_cons.mp hb with hb | hb
      · subst hb
        exact le_trans (foldl_min_le_init t (min b c)) (min_le_left b c)
      · rcases List.mem_cons.mp hb with hb | hb
        · subst hb
          exact le_trans (foldl_min_le_init t (min a b)) (min_le_right a b)
        · exact ih (min a c) b (List.mem_cons_of_mem _ hb)

theorem foldl_max_mem_le (l : List ℚ) (a : ℚ) : ∀ b ∈ a :: l, b ≤ l.foldl max a := by
  induction l generalizing a with
  | nil => intro b hb; simp at hb; simp [hb]
  | cons c t ih =>
      intro b hb
      rcases List.mem_cons.mp hb with hb | hb
      · subst hb
        exact le_trans (le_max_left b c) (foldl_max_init_le t (max b c))
      · rcases List.mem_cons.mp hb with hb | hb
        · subst hb
          exact le_trans (le_max_right a b) (foldl_max_init_le t (max a b))
        · exact ih (max a c) b (List.mem_cons_of_mem _ hb)

theorem foldl_min_mem (l : List ℚ) (a : ℚ) : l.foldl min a ∈ a :: l := by
  induction l generalizing a with
  | nil => simp
  | cons c t ih =>
      have h := ih (min a c)
      rcases List.mem_cons.mp h with h | h
      · rcases min_choice a c with hm | hm
        · rw [List.foldl_cons, h, hm]; exact List.mem_cons_self _ _
        · rw [List.foldl_cons, h, hm]
          exact List.mem_cons_of_mem _ (List.mem_cons_self _ _)
      · exact List.mem_cons_of_mem _ (List.mem_cons_of_mem _ (by simpa using h))

theorem foldl_max_mem (l : List ℚ) (a : ℚ) : l.foldl max a ∈ a :: l := by
  induction l generalizing a with
  | nil => simp
  | cons c t ih =>
      have h := ih (max a c)
      rcases List.mem_cons.mp h with h | h
      · rcases max_choice a c with hm | hm
        · rw [List.foldl_cons, h, hm]; exact List.mem_cons_self _ _
        · rw [List.foldl_cons, h, hm]
          exact List.mem_cons_of_mem _ (List.mem_cons_self _ _)
      · exact List.mem_cons_of_mem _ (List.mem_cons_of_mem _ (by simpa using h))

theorem foldMinMax_fst_x (l : List Vec3) (mm : Vec3 × Vec3) :
    (l.foldl foldMinMax mm).1.x = (l.map Vec3.x).foldl min mm.1.x := by
  induction l generalizing mm with
  | nil => rfl
  | cons v t ih => simp [List.foldl_cons, ih, foldMinMax]

theorem foldMinMax_fst_y (l : List Vec3) (mm : Vec3 × Vec3) :
    (l.foldl foldMinMax mm).1.y = (l.map Vec3.y).foldl min mm.1.y := by
  induction l generalizing mm with
  | nil => rfl
  | cons v t ih => simp [List.foldl_cons, ih, foldMinMax]

theorem foldMinMax_fst_z (l : List Vec3) (mm : Vec3 × Vec3) :
    (l.foldl foldMinMax mm).1.z = (l.map Vec3.z).foldl min mm.1.z := by
  induction l generalizing mm with
  | nil => rfl
  | cons v t ih => simp [List.foldl_cons, ih, foldMinMax]

theorem foldMinMax_snd_x (l : List Vec3) (mm : Vec3 × Vec3) :
    (l.foldl foldMinMax mm).2.x = (l.map Vec3.x).foldl max mm.2.x := by
  induction l generalizing mm with
  | nil => rfl
  | cons v t ih => simp [List.foldl_cons, ih, foldMinMax]

theorem foldMinMax_snd_y (l : List Vec3) (mm : Vec3 × Vec3) :
    (l.foldl foldMinMax mm).2.y = (l.map Vec3.y).foldl max mm.2.y := by
  induction l generalizing mm with
  | nil => rfl
  | cons v t ih => simp [List.foldl_cons, ih, foldMinMax]

theorem foldMinMax_snd_z (l : List Vec3) (mm : Vec3 × Vec3) :
    (l.foldl foldMinMax mm).2.z = (l.map Vec3.z).foldl max mm.2.z := by
  induction l generalizing mm with
  | nil => rfl
  | cons v t ih => simp [List.foldl_cons, ih, foldMinMax]

end FoldLemmas

section RunLemmas

theorem datumGeom_error_eq (buf : List Nat) (w vs i : Nat) (e : PyErr)
    (h : datumGeom buf w vs i = .error e) : e = .structError := by
  unfold datumGeom at h
  simp only [] at h
  split at h
  · cases h
  · cases h
    rfl

theorem runAttr_snd_none_or_structError (d : Nat → Except PyErr (List Nat))
    (hd : ∀ i e, d i = .error e → e = .structError) (l : List Nat) :
    (runAttr d l).2 = none ∨ (runAttr d l).2 = some .structError := by
  induction l with
  | nil => left; rfl
  | cons i is ih =>
      unfold runAttr
      cases hdi : d i with
      | error e => right; simpa using hd i e hdi
      | ok v => simpa using ih

theorem runAttr_snd_ne_none (d : Nat → Except PyErr (List Nat)) (l : List Nat)
    (i : Nat) (hi : i ∈ l) (e : PyErr) (h : d i = .error e) :
    (runAttr d l).2 ≠ none := by
  induction l with
  | nil => cases hi
  | cons j js ih =>
      unfold runAttr
      cases hdj : d j with
      | error e' => simp
      | ok v =>
          rcases List.mem_cons.mp hi with hij | hij
          · subst hij; rw [hdj] at h; cases h
          · simpa using ih hij

end RunLemmas

theorem geom_grouper_nil (n : Nat) : geom.grouper ([] : List α) n = [] := by
  rw [geom.grouper.eq_def]
  split <;> rfl

theorem geom_grouper_cons (x : α) (xs : List α) (n : Nat) (hn : n ≠ 0) :
    geom.grouper (x :: xs) n =
      (((x :: xs).take n).map some ++ List.replicate (n - (x :: xs).length) none)
        :: geom.grouper ((x :: xs).drop n) n := by
  rw [geom.grouper.eq_def]
  simp [hn]

theorem geomview_grouper_nil (n : Nat) : geomview.grouper ([] : List α) n = [] := by
  rw [geomview.grouper.eq_def]
  split <;> rfl

theorem geomview_grouper_cons (x : α) (xs : List α) (n : Nat) (hn : n ≠ 0) :
    geomview.grouper (x :: xs) n =
      (x :: xs).take n :: geomview.grouper ((x :: xs).drop n) n := by
  rw [geomview.grouper.eq_def]
  simp [hn]

theorem Vec3.ext {u v : Vec3} (hx : u.x = v.x) (hy : u.y = v.y) (hz : u.z = v.z) :
    u = v := by
  cases u; cases v; simp_all

theorem foldl_min_perm (v0 w0 : ℚ) (r r' : List ℚ) (h : (v0 :: r).Perm (w0 :: r')) :
    r.foldl min v0 = r'.foldl min w0 := by
  refine le_antisymm ?_ ?_
  · exact foldl_min_le_mem r v0 _ (h.mem_iff.mpr (foldl_min_mem r' w0))
  · exact foldl_min_le_mem r' w0 _ (h.mem_iff.mp (foldl_min_mem r v0))

theorem foldl_max_perm (v0 w0 : ℚ) (r r' : List ℚ) (h : (v0 :: r).Perm (w0 :: r')) :
    r.foldl max v0 = r'.foldl max w0 := by
  refine le_antisymm ?_ ?_
  · exact foldl_max_mem_le r' w0 _ (h.mem_iff.mp (foldl_max_mem r v0))
  · exact foldl_max_mem_le r v0 _ (h.mem_iff.mpr (foldl_max_mem r' w0))

theorem ofPoints_perm_cons (v0 w0 : Vec3) (rest rest' : List Vec3)
    (h : (v0 :: rest).Perm (w0 :: rest')) :
    AABB.ofPoints (v0 :: rest) = AABB.ofPoints (w0 :: rest') := by
  have hmapx : ((v0.x :: rest.map Vec3.x)).Perm (w0.x :: rest'.map Vec3.x) := by
    simpa using h.map Vec3.x
  have hmapy : ((v0.y :: rest.map Vec3.y)).Perm (w0.y :: rest'.map Vec3.y) := by
    simpa using h.map Vec3.y
  have hmapz : ((v0.z :: rest.map Vec3.z)).Perm (w0.z :: rest'.map Vec3.z) := by
    simpa using h.map Vec3.z
  have emm : rest.foldl foldMinMax (v0, v0) = rest'.foldl foldMinMax (w0, w0) := by
    refine Prod.ext (Vec3.ext ?_ ?_ ?_) (Vec3.ext ?_ ?_ ?_)
    · rw [foldMinMax_fst_x, foldMinMax_fst_x]
      exact foldl_min_perm _ _ _ _ hmapx
    · rw [foldMinMax_fst_y, foldMinMax_fst_y]
      exact foldl_min_perm _ _ _ _ hmapy
    · rw [foldMinMax_fst_z, foldMinMax_fst_z]
      exact foldl_min_perm _ _ _ _ hmapz
    · rw [foldMinMax_snd_x, foldMinMax_snd_x]
      exact foldl_max_perm _ _ _ _ hmapx
    · rw [foldMinMax_snd_y, foldMinMax_snd_y]
      exact foldl_max_perm _ _ _ _ hmapy
    · rw [foldMinMax_snd_z, foldMinMax_snd_z]
      exact foldl_max_perm _ _ _ _ hmapz
  simp only [AABB.ofPoints]
  rw [emm]

/-- C7: on a non-empty point sequence `geom.AABB.__init__` takes the first
point as both initial minimum and maximum and folds the remaining points
componentwise, so the resulting `min`/`max` are componentwise lower/upper
bounds of all input points and every component is attained by some input
point (i.e. they are the componentwise minimum and maximum); consequently the
construction is order-independent: any permutation of the input yields the
same box. -/
theorem C7_bounding_box_fold (v0 : Vec3) (rest : List Vec3) :
    (∃ b, AABB.ofPoints (v0 :: rest) = .ok b ∧
      (∀ p ∈ v0 :: rest, b.min.x ≤ p.x ∧ b.min.y ≤ p.y ∧ b.min.z ≤ p.z ∧
        p.x ≤ b.max.x ∧ p.y ≤ b.max.y ∧ p.z ≤ b.max.z) ∧
      b.min.x ∈ (v0 :: rest).map Vec3.x ∧ b.min.y ∈ (v0 :: rest).map Vec3.y ∧
      b.min.z ∈ (v0 :: rest).map Vec3.z ∧ b.max.x ∈ (v0 :: rest).map Vec3.x ∧
      b.max.y ∈ (v0 :: rest).map Vec3.y ∧ b.max.z ∈ (v0 :: rest).map Vec3.z) ∧
    (∀ l', (v0 :: rest).Perm l' → AABB.ofPoints (v0 :: rest) = AABB.ofPoints l') := by
  constructor
  · refine ⟨_, rfl, ?_, ?_, ?_, ?_, ?_, ?_, ?_⟩
    · intro p hp
      have hx : p.x ∈ v0.x :: rest.map Vec3.x := by
        simpa using List.mem_map_of_mem Vec3.x hp
      have hy : p.y ∈ v0.y :: rest.map Vec3.y := by
        simpa using List.mem_map_of_mem Vec3.y hp
      have hz : p.z ∈ v0.z :: rest.map Vec3.z := by
        simpa using List.mem_map_of_mem Vec3.z hp
      refine ⟨?_, ?_, ?_, ?_, ?_, ?_⟩
      · rw [foldMinMax_fst_x]; exact foldl_min_le_mem _ _ _ hx
      · rw [foldMinMax_fst_y]; exact foldl_min_le_mem _ _ _ hy
      · rw [foldMinMax_fst_z]; exact foldl_min_le_mem _ _ _ hz
      · rw [foldMinMax_snd_x]; exact foldl_max_mem_le _ _ _ hx
      · rw [foldMinMax_snd_y]; exact foldl_max_mem_le _ _ _ hy
      · rw [foldMinMax_snd_z]; exact foldl_max_mem_le _ _ _ hz
    · rw [List.map_cons, foldMinMax_fst_x]; exact foldl_min_mem _ _
    · rw [List.map_cons, foldMinMax_fst_y]; exact foldl_min_mem _ _
    · rw [List.map_cons, foldMinMax_fst_z]; exact foldl_min_mem _ _
    · rw [List.map_cons, foldMinMax_snd_x]; exact foldl_max_mem _ _
    · rw [List.map_cons, foldMinMax_snd_y]; exact foldl_max_mem _ _
    · rw [List.map_cons, foldMinMax_snd_z]; exact foldl_max_mem _ _
  · intro l' hperm
    cases l' with
    | nil => exact absurd hperm.length_eq (by simp)
    | cons w0 rest' => exact ofPoints_perm_cons v0 w0 rest rest' hperm

/-- C7 witness: instantiation at a concrete two-point list and one of its
permutations. -/
theorem C7_bounding_box_fold_witness :
    AABB.ofPoints [⟨1, 5, 3⟩, ⟨2, 4, 6⟩] = AABB.ofPoints [⟨2, 4, 6⟩, ⟨1, 5, 3⟩] :=
  (C7_bounding_box_fold ⟨1, 5, 3⟩ [⟨2, 4, 6⟩]).2 _ (List.Perm.swap _ _ _)

theorem runAttr_cons_ok (d : Nat → Except PyErr (List Nat)) (i : Nat)
    (is : List Nat) (v : List Nat) (h : d i = .ok v) :
    runAttr d (i :: is) = (v :: (runAttr d is).1, (runAttr d is).2) := by
  rw [show runAttr d (i :: is) =
    (match d i with
      | .error e => ([], some e)
      | .ok x => (x :: (runAttr d is).1, (runAttr d is).2)) from rfl, h]

theorem datumViewAux_eq (buf : List Nat) (w i : Nat) (js : List Nat) :
    datumViewAux buf w i js =
      if ∀ j ∈ js, ((buf.drop (i + j * w)).take w).length = w then
        .ok (js.map fun j => leDecode ((buf.drop (i + j * w)).take w))
      else .error .structError := by
  induction js with
  | nil => simp [datumViewAux]
  | cons j js ih =>
      by_cases hj : ((buf.drop (i + j * w)).take w).length = w
      · by_cases hrest : ∀ k ∈ js, ((buf.drop (i + k * w)).take w).length = w
        · rw [if_pos (show ∀ j' ∈ j :: js,
              ((buf.drop (i + j' * w)).take w).length = w from
              List.forall_mem_cons.mpr ⟨hj, hrest⟩)]
          unfold datumViewAux
          rw [if_pos hj, ih, if_pos hrest]
          rfl
        · rw [if_neg (fun h => hrest fun k hk => h k (List.mem_cons_of_mem _ hk))]
          unfold datumViewAux
          rw [if_pos hj, ih, if_neg hrest]
      · rw [if_neg (fun h => hj (h j (List.mem_cons_self _ _)))]
        unfold datumViewAux
        rw [if_neg hj]

theorem datumGeom_eq_datumView (buf : List Nat) (w : Nat) (hw : 0 < w)
    (vs i : Nat) : datumGeom buf w vs i = datumView buf w vs i := by
  rcases Nat.eq_zero_or_pos vs with hvs | hvs
  · subst hvs
    simp [datumGeom, datumView, datumViewAux]
  unfold datumGeom datumView
  rw [datumViewAux_eq]
  by_cases hfull : ((buf.drop i).take (w * vs)).length = w * vs
  · have hlen : w * vs ≤ buf.length - i := by
      simp only [List.length_take, List.length_drop] at hfull
      omega
    have hcomp : ∀ j ∈ List.range vs, ((buf.drop (i + j * w)).take w).length = w := by
      intro j hj
      have hj' : j + 1 ≤ vs := List.mem_range.mp hj
      have hmul : (j + 1) * w ≤ vs * w := Nat.mul_le_mul_right w hj'
      have hjw : j * w + w = (j + 1) * w := by ring
      have hvw : vs * w = w * vs := Nat.mul_comm vs w
      simp only [List.length_take, List.length_drop]
      omega
    rw [if_pos hfull, if_pos hcomp]
    congr 1
    apply List.map_congr_left
    intro j hj
    have hj' : j + 1 ≤ vs := List.mem_range.mp hj
    have hmul : (j + 1) * w ≤ vs * w := Nat.mul_le_mul_right w hj'
    have hsub : w ≤ w * vs - j * w := by
      have hjw : j * w + w = (j + 1) * w := by ring
      have hvw : vs * w = w * vs := Nat.mul_comm vs w
      omega
    rw [List.drop_take, List.take_take, Nat.min_eq_left hsub, List.drop_drop]
  · have hvsw : vs * w = w * vs := Nat.mul_comm vs w
    have hone : (vs - 1) * w + w = vs * w := by
      have : vs - 1 + 1 = vs := Nat.succ_pred_eq_of_pos hvs
      calc (vs - 1) * w + w = (vs - 1 + 1) * w := by ring
      _ = vs * w := by rw [this]
    have hshort : ¬ ∀ j ∈ List.range vs, ((buf.drop (i + j * w)).take w).length = w := by
      intro hall
      have hlast := hall (vs - 1) (List.mem_range.mpr (by omega))
      simp only [List.length_take, List.length_drop] at hlast hfull
      omega
    rw [if_neg hfull, if_neg hshort]

theorem flatMap_length_const (f : α → List β) (w : Nat) (l : List α)
    (h : ∀ x ∈ l, (f x).length = w) : (l.flatMap f).length = l.length * w := by
  induction l with
  | nil => simp
  | cons x xs ih =>
      rw [List.flatMap_cons, List.length_append, h x (List.mem_cons_self _ _),
        ih (fun y hy => h y (List.mem_cons_of_mem _ hy))]
      simp [Nat.succ_mul]
      omega

theorem flatMap_drop_mul (f : α → List β) (w : Nat) (l : List α)
    (h : ∀ x ∈ l, (f x).length = w) (k : Nat) :
    (l.flatMap f).drop (k * w) = (l.drop k).flatMap f := by
  induction l generalizing k with
  | nil => simp
  | cons x xs ih =>
      cases k with
      | zero => simp
      | succ k' =>
          have hx : (f x).length = w := h x (List.mem_cons_self _ _)
          have hdw : (f x).drop w = [] := by rw [← hx, List.drop_length]
          rw [List.flatMap_cons, show (k' + 1) * w = w + k' * w by ring,
            ← List.drop_drop, List.drop_append_of_le_length (le_of_eq hx.symm),
            hdw, List.nil_append,
            ih (fun y hy => h y (List.mem_cons_of_mem _ hy)) k']
          rfl

theorem flatMap_take_mul (f : α → List β) (w : Nat) (l : List α)
    (h : ∀ x ∈ l, (f x).length = w) (k : Nat) :
    (l.flatMap f).take (k * w) = (l.take k).flatMap f := by
  induction l generalizing k with
  | nil => simp
  | cons x xs ih =>
      cases k with
      | zero => simp
      | succ k' =>
          have hx : (f x).length = w := h x (List.mem_cons_self _ _)
          rw [List.flatMap_cons, show (k' + 1) * w = w + k' * w by ring,
            List.take_append_eq_append_take, List.take_of_length_le (by omega),
            hx, Nat.add_sub_cancel_left,
            ih (fun y hy => h y (List.mem_cons_of_mem _ hy)) k']
          rw [List.take_succ_cons, List.flatMap_cons]

theorem runAttr_map_ok (d : Nat → Except PyErr (List Nat)) (g : Nat → Nat)
    (l : List Nat) (f : Nat → List Nat)
    (h : ∀ k ∈ l, d (g k) = .ok (f k)) :
    runAttr d (l.map g) = (l.map f, none) := by
  induction l with
  | nil => rfl
  | cons k ks ih =>
      rw [List.map_cons, runAttr_cons_ok d (g k) _ _ (h k (List.mem_cons_self _ _)),
        ih (fun j hj => h j (List.mem_cons_of_mem _ hj))]
      rfl

theorem pow_two_eq_pow256 (w : Nat) : 2 ^ (8 * w) = 256 ^ w := by
  rw [pow_mul]
  norm_num

theorem buildVertexAttrs_datum (array : List (List Nat)) (bt : BaseType)
    (columns : Nat)
    (hcols : ∀ row ∈ array, row.length = columns)
    (hvals : ∀ row ∈ array, ∀ v ∈ row, v < 2 ^ (8 * bt.width))
    (col nc : Nat) (hnc : 1 ≤ nc) (hbound : col + nc ≤ columns)
    (k : Nat) (hk : k < array.length) :
    datumGeom (array.flatten.flatMap (leBytes bt.width)) bt.width nc
        (col * bt.width + k * (columns * bt.width)) =
      .ok (((array.getD k []).drop col).take nc) := by
  have hw : 0 < bt.width := bt.width_pos
  have hbuf : array.flatten.flatMap (leBytes bt.width) =
      array.flatMap fun r => r.flatMap (leBytes bt.width) := by
    rw [List.flatten_eq_flatMap, List.flatMap_assoc]
    simp
  have hrowlen : ∀ r ∈ array, (r.flatMap (leBytes bt.width)).length =
      columns * bt.width := by
    intro r hr
    rw [flatMap_length_const _ bt.width r (fun v _ => leBytes_length _ v), hcols r hr]
  have hmemk : array[k] ∈ array := List.getElem_mem hk
  have hlenk : (array[k]).length = columns := hcols _ hmemk
  have hdrop : (array.flatten.flatMap (leBytes bt.width)).drop
      (col * bt.width + k * (columns * bt.width)) =
      ((array[k]).drop col).flatMap (leBytes bt.width) ++
        (array.drop (k + 1)).flatMap (fun r => r.flatMap (leBytes bt.width)) := by
    rw [hbuf, Nat.add_comm (col * bt.width), ← List.drop_drop,
      flatMap_drop_mul _ (columns * bt.width) array hrowlen k,
      List.drop_eq_getElem_cons hk, List.flatMap_cons,
      List.drop_append_of_le_length
        (by rw [hrowlen _ hmemk]; exact Nat.mul_le_mul_right _ (by omega)),
      flatMap_drop_mul _ bt.width (array[k]) (fun v _ => leBytes_length _ v) col]
  have hdroplen : (((array[k]).drop col).flatMap (leBytes bt.width)).length =
      (columns - col) * bt.width := by
    rw [flatMap_length_const _ bt.width _ (fun v _ => leBytes_length _ v),
      List.length_drop, hlenk]
  have htake : ((array.flatten.flatMap (leBytes bt.width)).drop
      (col * bt.width + k * (columns * bt.width))).take (bt.width * nc) =
      (((array[k]).drop col).take nc).flatMap (leBytes bt.width) := by
    rw [hdrop, List.take_append_of_le_length
        (by rw [hdroplen, Nat.mul_comm bt.width nc]
            exact Nat.mul_le_mul_right _ (by omega)),
      Nat.mul_comm bt.width nc,
      flatMap_take_mul _ bt.width _ (fun v _ => leBytes_length _ v) nc]
  have hvallen : (((array[k]).drop col).take nc).length = nc := by
    rw [List.length_take, List.length_drop, hlenk]
    omega
  have htakelen : ((((array[k]).drop col).take nc).flatMap (leBytes bt.width)).length
      = nc * bt.width := by
    rw [flatMap_length_const _ bt.width _ (fun v _ => leBytes_length _ v), hvallen]
  unfold datumGeom
  rw [htake, if_pos (by rw [htakelen, Nat.mul_comm])]
  rw [List.getD_eq_getElem array [] hk]
  congr 1
  apply List.ext_getElem
  · simp [hvallen]
  · intro j h1 h2
    rw [List.getElem_map, List.getElem_range]
    have hj : j < nc := by simpa using h1
    have hjlen : j < (((array[k]).drop col).take nc).length := by
      rw [hvallen]; exact hj
    rw [flatMap_drop_mul _ bt.width _ (fun v _ => leBytes_length _ v) j,
      List.drop_eq_getElem_cons hjlen, List.flatMap_cons,
      List.take_append_of_le_length (le_of_eq (leBytes_length _ _).symm),
      List.take_of_length_le (le_of_eq (leBytes_length _ _))]
    have hmemv : (((array[k]).drop col).take nc)[j] ∈ array[k] :=
      List.mem_of_mem_drop (List.mem_of_mem_take (List.getElem_mem hjlen))
    have hv : (((array[k]).drop col).take nc)[j] < 256 ^ bt.width := by
      rw [← pow_two_eq_pow256]
      exact hvals _ hmemk _ hmemv
    exact leDecode_leBytes _ _ hv

theorem padM_npCoords (b : AABB) :
    padM (npCoords b) = Matrix.of
      ![![b.min.x, b.min.y, b.min.z, 1], ![b.min.x, b.min.y, b.max.z, 1],
        ![b.min.x, b.max.y, b.min.z, 1], ![b.min.x, b.max.y, b.max.z, 1],
        ![b.max.x, b.min.y, b.min.z, 1], ![b.max.x, b.min.y, b.max.z, 1],
        ![b.max.x, b.max.y, b.min.z, 1], ![b.max.x, b.max.y, b.max.z, 1]] := by
  funext i j
  fin_cases i <;> fin_cases j <;> rfl

theorem npCoords_z (b : AABB) (i : Fin 8) :
    npCoords b i 2 = if i.val % 2 = 0 then b.min.z else b.max.z := by
  fin_cases i <;> rfl

theorem padM_kernel (b : AABB)
    (h1 : b.min.x < b.max.x) (h2 : b.min.y < b.max.y) (h3 : b.min.z < b.max.z)
    (v : Fin 4 → ℚ) (hv : (padM (npCoords b)).mulVec v = 0) : v = 0 := by
  rw [padM_npCoords] at hv
  have e0 := congrFun hv 0
  have e1 := congrFun hv 1
  have e2 := congrFun hv 2
  have e4 := congrFun hv 4
  simp [Matrix.mulVec, Matrix.dotProduct, Fin.sum_univ_four] at e0 e1 e2 e4
  have hz : v 2 = 0 := by
    have h : (b.max.z - b.min.z) * v 2 = 0 := by linear_combination e1 - e0
    rcases mul_eq_zero.mp h with h | h
    · exact absurd h (sub_ne_zero.mpr (ne_of_gt h3))
    · exact h
  have hy : v 1 = 0 := by
    have h : (b.max.y - b.min.y) * v 1 = 0 := by linear_combination e2 - e0
    rcases mul_eq_zero.mp h with h | h
    · exact absurd h (sub_ne_zero.mpr (ne_of_gt h2))
    · exact h
  have hx : v 0 = 0 := by
    have h : (b.max.x - b.min.x) * v 0 = 0 := by linear_combination e4 - e0
    rcases mul_eq_zero.mp h with h | h
    · exact absurd h (sub_ne_zero.mpr (ne_of_gt h1))
    · exact h
  have hw : v 3 = 0 := by
    rw [hx, hy, hz] at e0
    linarith [e0]
  funext j
  fin_cases j
  · exact hx
  · exact hy
  · exact hz
  · exact hw

theorem normal_kernel (X : Matrix (Fin 8) (Fin 4) ℚ) (v : Fin 4 → ℚ)
    (h : (X.transpose * X).mulVec v = 0) : X.mulVec v = 0 := by
  have hdot : Matrix.dotProduct v ((X.transpose * X).mulVec v) = 0 := by
    rw [h]
    simp [Matrix.dotProduct]
  rw [← Matrix.mulVec_mulVec, Matrix.dotProduct_mulVec, Matrix.vecMul_transpose]
    at hdot
  unfold Matrix.dotProduct at hdot
  have hall := (Finset.sum_eq_zero_iff_of_nonneg
    (fun i _ => mul_self_nonneg (X.mulVec v i))).mp hdot
  funext i
  exact mul_self_eq_zero.mp (hall i (Finset.mem_univ i))

theorem lstsq_unique_of_kernel (X Y : Matrix (Fin 8) (Fin 4) ℚ)
    (hker : ∀ v, X.mulVec v = 0 → v = 0)
    (A A0 : Matrix (Fin 4) (Fin 4) ℚ)
    (hA : lstsqSpec X Y A) (hA0 : X * A0 = Y) : A = A0 := by
  have h : X.transpose * X * A = X.transpose * X * A0 := by
    unfold lstsqSpec at hA
    rw [hA, ← hA0, ← Matrix.mul_assoc]
  have hz : X.transpose * X * (A - A0) = 0 := by
    rw [Matrix.mul_sub, h, sub_self]
  have hcols : ∀ j, (fun k => (A - A0) k j) = (0 : Fin 4 → ℚ) := by
    intro j
    apply hker
    apply normal_kernel
    funext i
    have hij := congrFun (congrFun hz i) j
    simp only [Matrix.zero_apply] at hij
    simp only [Matrix.mulVec, Matrix.dotProduct, Matrix.mul_apply] at hij ⊢
    simpa using hij
  have hsub : A - A0 = 0 := by
    funext k j
    have := congrFun (hcols j) k
    simpa using this
  exact sub_eq_zero.mp hsub

theorem padV_row (b : AABB) (i : Fin 8) (j : Fin 4) :
    padV (b.corner i) j = padM (npCoords b) i j := by
  fin_cases j <;> rfl

theorem lstsqSpec_of_exact (X : Matrix (Fin 8) (Fin 4) ℚ)
    (Y : Matrix (Fin 8) (Fin 4) ℚ) (A0 : Matrix (Fin 4) (Fin 4) ℚ)
    (h : X * A0 = Y) : lstsqSpec X Y A0 := by
  unfold lstsqSpec
  rw [Matrix.mul_assoc, h]

theorem exactAffine_solves (b1 b2 : AABB)
    (h1x : b1.min.x < b1.max.x) (h1y : b1.min.y < b1.max.y)
    (h1z : b1.min.z < b1.max.z) :
    padM (npCoords b1) * exactAffine b1 b2 = padM (npCoords b2) := by
  have hx : b1.max.x - b1.min.x ≠ 0 := sub_ne_zero.mpr (ne_of_gt h1x)
  have hy : b1.max.y - b1.min.y ≠ 0 := sub_ne_zero.mpr (ne_of_gt h1y)
  have hz : b1.max.z - b1.min.z ≠ 0 := sub_ne_zero.mpr (ne_of_gt h1z)
  funext i j
  rw [Matrix.mul_apply, Fin.sum_univ_four,
    ← padV_row b1 i 0, ← padV_row b1 i 1, ← padV_row b1 i 2, ← padV_row b1 i 3,
    ← padV_row b2 i j]
  fin_cases i <;> fin_cases j <;>
    · simp [padV, exactAffine, AABB.corner, AABB.iterCorners,
        Matrix.vecHead, Matrix.vecTail]
      try field_simp
      try ring

theorem coordsPair_of_nonflat (b1 b2 : AABB) (h : b1.min.z ≠ b1.max.z) :
    coordsPair b1 b2 = (npCoords b1, npCoords b2) := by
  unfold coordsPair
  rw [if_neg]
  rintro ⟨-, hfrom⟩
  have ha : b1.min.z = 0 := hfrom 0
  have hb : b1.max.z = 0 := hfrom 1
  exact h (ha.trans hb.symm)

/-- C5: for proper boxes (positive extent on all three axes) the flatness
branch of `transformBetween` is not taken, and any solution of the normal
equations for `lstsq(X, Y)` is the exact corner-to-corner affine map, so the
returned transform maps corner `i` of `boxFrom` to corner `i` of `boxTo` for
all 8 corners in positional order — exactly over the rationals, hence a
fortiori within any floating-point tolerance. -/
theorem C5_transform_maps_corners (b1 b2 : AABB)
    (h1x : b1.min.x < b1.max.x) (h1y : b1.min.y < b1.max.y)
    (h1z : b1.min.z < b1.max.z)
    (h2x : b2.min.x < b2.max.x) (h2y : b2.min.y < b2.max.y)
    (h2z : b2.min.z < b2.max.z)
    (A : Matrix (Fin 4) (Fin 4) ℚ)
    (hA : lstsqSpec (transformX b1 b2) (transformY b1 b2) A) :
    ∀ i : Fin 8, transformApply A (b1.corner i) = b2.corner i := by
  have hcp := coordsPair_of_nonflat b1 b2 (ne_of_lt h1z)
  have hX : transformX b1 b2 = padM (npCoords b1) := by
    unfold transformX
    rw [hcp]
  have hY : transformY b1 b2 = padM (npCoords b2) := by
    unfold transformY
    rw [hcp]
  rw [hX, hY] at hA
  have hA0 := exactAffine_solves b1 b2 h1x h1y h1z
  have hAeq : A = exactAffine b1 b2 :=
    lstsq_unique_of_kernel _ _ (fun v hv => padM_kernel b1 h1x h1y h1z v hv)
      A _ hA hA0
  subst hAeq
  intro i
  have hrow : ∀ j : Fin 4,
      Matrix.vecMul (padV (b1.corner i)) (exactAffine b1 b2) j =
        padM (npCoords b2) i j := by
    intro j
    have hmul := congrFun (congrFun hA0 i) j
    rw [Matrix.mul_apply] at hmul
    rw [← hmul]
    unfold Matrix.vecMul Matrix.dotProduct
    exact Finset.sum_congr rfl fun k _ => by rw [padV_row]
  exact Vec3.ext ((hrow 0).trans (padV_row b2 i 0).symm)
    ((hrow 1).trans (padV_row b2 i 1).symm)
    ((hrow 2).trans (padV_row b2 i 2).symm)

/-- C5 witness: the unit cube centered at the origin mapped onto the 2x3x4
box centered at the origin; the exact affine solution solves the normal
equations and corner 7 is mapped to corner 7. -/
theorem C5_transform_maps_corners_witness :
    transformApply
      (exactAffine ⟨⟨-1/2, -1/2, -1/2⟩, ⟨1/2, 1/2, 1/2⟩, ⟨0, 0, 0⟩⟩
        ⟨⟨-1, -3/2, -2⟩, ⟨1, 3/2, 2⟩, ⟨0, 0, 0⟩⟩)
      ((AABB.mk ⟨-1/2, -1/2, -1/2⟩ ⟨1/2, 1/2, 1/2⟩ ⟨0, 0, 0⟩).corner 7) =
    (AABB.mk ⟨-1, -3/2, -2⟩ ⟨1, 3/2, 2⟩ ⟨0, 0, 0⟩).corner 7 := by
  have hcp := coordsPair_of_nonflat
    ⟨⟨-1/2, -1/2, -1/2⟩, ⟨1/2, 1/2, 1/2⟩, ⟨0, 0, 0⟩⟩
    ⟨⟨-1, -3/2, -2⟩, ⟨1, 3/2, 2⟩, ⟨0, 0, 0⟩⟩ (by norm_num)
  have hA : lstsqSpec
      (transformX ⟨⟨-1/2, -1/2, -1/2⟩, ⟨1/2, 1/2, 1/2⟩, ⟨0, 0, 0⟩⟩
        ⟨⟨-1, -3/2, -2⟩, ⟨1, 3/2, 2⟩, ⟨0, 0, 0⟩⟩)
      (transformY ⟨⟨-1/2, -1/2, -1/2⟩, ⟨1/2, 1/2, 1/2⟩, ⟨0, 0, 0⟩⟩
        ⟨⟨-1, -3/2, -2⟩, ⟨1, 3/2, 2⟩, ⟨0, 0, 0⟩⟩)
      (exactAffine ⟨⟨-1/2, -1/2, -1/2⟩, ⟨1/2, 1/2, 1/2⟩, ⟨0, 0, 0⟩⟩
        ⟨⟨-1, -3/2, -2⟩, ⟨1, 3/2, 2⟩, ⟨0, 0, 0⟩⟩) := by
    unfold transformX transformY
    rw [hcp]
    exact lstsqSpec_of_exact _ _ _
      (exactAffine_solves _ _ (by norm_num) (by norm_num) (by norm_num))
  exact C5_transform_maps_corners
    ⟨⟨-1/2, -1/2, -1/2⟩, ⟨1/2, 1/2, 1/2⟩, ⟨0, 0, 0⟩⟩
    ⟨⟨-1, -3/2, -2⟩, ⟨1, 3/2, 2⟩, ⟨0, 0, 0⟩⟩
    (by norm_num) (by norm_num) (by norm_num)
    (by norm_num) (by norm_num) (by norm_num)
    _ hA 7

theorem c4_flat_cond :
    (∀ i : Fin 8, npCoords ⟨⟨0, 0, 0⟩, ⟨4, 8, 0⟩, ⟨2, 4, 0⟩⟩ i 2 = 0) ∧
    (∀ i : Fin 8, npCoords ⟨⟨0, 0, 0⟩, ⟨2, 4, 0⟩, ⟨1, 2, 0⟩⟩ i 2 = 0) :=
  ⟨fun i => by fin_cases i <;> rfl, fun i => by fin_cases i <;> rfl⟩

theorem c4X_eq :
    transformX ⟨⟨0, 0, 0⟩, ⟨2, 4, 0⟩, ⟨1, 2, 0⟩⟩ ⟨⟨0, 0, 0⟩, ⟨4, 8, 0⟩, ⟨2, 4, 0⟩⟩ =
      padM (npCoords ⟨⟨0, 0, -1⟩, ⟨2, 4, 1⟩, ⟨1, 2, 0⟩⟩) := by
  unfold transformX
  simp only [coordsPair]
  rw [if_pos c4_flat_cond]
  apply Matrix.ext
  intro i j
  fin_cases i <;> fin_cases j <;>
    norm_num [padM, npCoords, AABB.corner, AABB.iterCorners, avgRatio,
      AABB.dimensions]
  all_goals decide

theorem c4Y_eq :
    transformY ⟨⟨0, 0, 0⟩, ⟨2, 4, 0⟩, ⟨1, 2, 0⟩⟩ ⟨⟨0, 0, 0⟩, ⟨4, 8, 0⟩, ⟨2, 4, 0⟩⟩ =
      padM (npCoords ⟨⟨0, 0, -2⟩, ⟨4, 8, 2⟩, ⟨2, 4, 0⟩⟩) := by
  unfold transformY
  simp only [coordsPair]
  rw [if_pos c4_flat_cond]
  apply Matrix.ext
  intro i j
  fin_cases i <;> fin_cases j <;>
    norm_num [padM, npCoords, AABB.corner, AABB.iterCorners, avgRatio,
      AABB.dimensions]
  all_goals decide

/-- C4: when every corner of both boxes has z = 0, `transformBetween`
substitutes synthetic z-values -1/+1 for `boxFrom`'s even (minimum-z) and odd
(maximum-z) corner rows and -ratio/+ratio for `boxTo`'s, where `ratio` is the
average of the X and Y scale ratios; in particular for
`boxFrom = (0,0,0)-(2,4,0)` and `boxTo = (0,0,0)-(4,8,0)` any solution of the
least-squares normal equations sends `(1,1,1)` to `(2,2,2)`, the z-component
scaling by the average ratio 2. -/
theorem C4_flatness_correction :
    (∀ b1 b2 : AABB, (∀ i, npCoords b2 i 2 = 0) → (∀ i, npCoords b1 i 2 = 0) →
      (∀ i : Fin 8, (coordsPair b1 b2).1 i 2 =
        if i.val % 2 = 0 then -1 else 1) ∧
      (∀ i : Fin 8, (coordsPair b1 b2).2 i 2 =
        if i.val % 2 = 0 then -(avgRatio b1 b2) else avgRatio b1 b2)) ∧
    (∀ A : Matrix (Fin 4) (Fin 4) ℚ,
      lstsqSpec
          (transformX ⟨⟨0, 0, 0⟩, ⟨2, 4, 0⟩, ⟨1, 2, 0⟩⟩
            ⟨⟨0, 0, 0⟩, ⟨4, 8, 0⟩, ⟨2, 4, 0⟩⟩)
          (transformY ⟨⟨0, 0, 0⟩, ⟨2, 4, 0⟩, ⟨1, 2, 0⟩⟩
            ⟨⟨0, 0, 0⟩, ⟨4, 8, 0⟩, ⟨2, 4, 0⟩⟩) A →
      transformApply A ⟨1, 1, 1⟩ = ⟨2, 2, 2⟩) := by
  constructor
  · intro b1 b2 h2 h1
    unfold coordsPair
    rw [if_pos ⟨h2, h1⟩]
    constructor <;> intro i <;> simp
  · intro A hA
    rw [c4X_eq, c4Y_eq] at hA
    have hA0 := exactAffine_solves ⟨⟨0, 0, -1⟩, ⟨2, 4, 1⟩, ⟨1, 2, 0⟩⟩
      ⟨⟨0, 0, -2⟩, ⟨4, 8, 2⟩, ⟨2, 4, 0⟩⟩ (by norm_num) (by norm_num) (by norm_num)
    have hAeq : A = exactAffine ⟨⟨0, 0, -1⟩, ⟨2, 4, 1⟩, ⟨1, 2, 0⟩⟩
        ⟨⟨0, 0, -2⟩, ⟨4, 8, 2⟩, ⟨2, 4, 0⟩⟩ :=
      lstsq_unique_of_kernel _ _
        (fun v hv => padM_kernel _ (by norm_num) (by norm_num) (by norm_num) v hv)
        A _ hA hA0
    subst hAeq
    refine Vec3.ext ?_ ?_ ?_ <;>
      · simp [transformApply, Matrix.vecMul, Matrix.dotProduct,
          Fin.sum_univ_four, padV, exactAffine, Matrix.vecHead, Matrix.vecTail]
        norm_num

/-- C4 witness: the substitution facts at corner 0 of the concrete flat
boxes, and the transform of `(1,1,1)` under the concrete normal-equation
solution. -/
theorem C4_flatness_correction_witness :
    (coordsPair ⟨⟨0, 0, 0⟩, ⟨2, 4, 0⟩, ⟨1, 2, 0⟩⟩
        ⟨⟨0, 0, 0⟩, ⟨4, 8, 0⟩, ⟨2, 4, 0⟩⟩).1 0 2 =
      (if (0 : Fin 8).val % 2 = 0 then -1 else 1) ∧
    transformApply
      (exactAffine ⟨⟨0, 0, -1⟩, ⟨2, 4, 1⟩, ⟨1, 2, 0⟩⟩
        ⟨⟨0, 0, -2⟩, ⟨4, 8, 2⟩, ⟨2, 4, 0⟩⟩) ⟨1, 1, 1⟩ = ⟨2, 2, 2⟩ :=
  ⟨(C4_flatness_correction.1 _ _ c4_flat_cond.1 c4_flat_cond.2).1 0,
   C4_flatness_correction.2 _ (by
    rw [c4X_eq, c4Y_eq]
    exact lstsqSpec_of_exact _ _ _
      (exactAffine_solves _ _ (by norm_num) (by norm_num) (by norm_num)))⟩

/-- C2: round-trip through `buildVertexAttrs` and `geom.iterAttr`.  For a
non-empty rectangular array of scalar bit patterns and a descriptor set whose
`(column, numcols)` ranges cover all columns exactly once (each with at least
one column, as the data model requires of a component count), the encoder
emits attributes that all share the element stride
`totalColumns * width(baseType)` and whose byte offsets are
`startColumn * width(baseType)`; and decoding each produced attribute yields
back exactly the corresponding column slice of every row, with no error. -/
theorem C2_encode_decode_roundtrip (array : List (List Nat)) (bt : BaseType)
    (attrspecs : List AttrSpec)
    (hne : array ≠ [])
    (hcols : ∀ row ∈ array, row.length = (array.headD []).length)
    (hvals : ∀ row ∈ array, ∀ v ∈ row, v < 2 ^ (8 * bt.width))
    (hpos : ∀ asp ∈ attrspecs, 1 ≤ asp.numcols)
    (hcov : (attrspecs.flatMap fun asp => List.range' asp.column asp.numcols).Perm
      (List.range (array.headD []).length)) :
    buildVertexAttrs array bt attrspecs = attrspecs.map (fun asp =>
      { name := asp.name, vertexBaseType := bt, vertexSize := asp.numcols,
        byteStride := (array.headD []).length * bt.width,
        byteOffset := asp.column * bt.width, count := array.length,
        bufferData := array.flatten.flatMap (leBytes bt.width) }) ∧
    ∀ asp ∈ attrspecs,
      geom.iterAttr
        { name := asp.name, vertexBaseType := bt, vertexSize := asp.numcols,
          byteStride := (array.headD []).length * bt.width,
          byteOffset := asp.column * bt.width, count := array.length,
          bufferData := array.flatten.flatMap (leBytes bt.width) } =
        (array.map fun row => (row.drop asp.column).take asp.numcols, none) := by
  have hw : 0 < bt.width := bt.width_pos
  refine ⟨rfl, ?_⟩
  intro asp hasp
  have hnc : 1 ≤ asp.numcols := hpos asp hasp
  have hbound : asp.column + asp.numcols ≤ (array.headD []).length := by
    have hlast : asp.column + asp.numcols - 1 ∈
        List.range' asp.column asp.numcols := by
      rw [List.mem_range'_1]
      omega
    have hmem : asp.column + asp.numcols - 1 ∈
        attrspecs.flatMap fun a => List.range' a.column a.numcols :=
      List.mem_flatMap.mpr ⟨asp, hasp, hlast⟩
    have hrange := hcov.mem_iff.mp hmem
    rw [List.mem_range] at hrange
    omega
  have hcolpos : 0 < (array.headD []).length := by omega
  have hstride : ((array.headD []).length * bt.width) ≠ 0 := by
    exact Nat.mul_ne_zero (by omega) (by omega)
  set cols := (array.headD []).length with hcolsdef
  have heff : effStride
      { name := asp.name, vertexBaseType := bt, vertexSize := asp.numcols,
        byteStride := cols * bt.width,
        byteOffset := asp.column * bt.width, count := array.length,
        bufferData := array.flatten.flatMap (leBytes bt.width) } =
      cols * bt.width := by
    unfold effStride
    simp [hstride]
  have hvseff : effVsGeom
      { name := asp.name, vertexBaseType := bt, vertexSize := asp.numcols,
        byteStride := cols * bt.width,
        byteOffset := asp.column * bt.width, count := array.length,
        bufferData := array.flatten.flatMap (leBytes bt.width) } =
      asp.numcols := by
    unfold effVsGeom
    simp
    omega
  unfold geom.iterAttr
  unfold attrIndices
  rw [heff, hvseff]
  simp only []
  rw [runAttr_map_ok _ _ _
    (fun k => ((array.getD k []).drop asp.column).take asp.numcols)
    (fun k hk => buildVertexAttrs_datum array bt cols hcols hvals
      asp.column asp.numcols hnc hbound k (List.mem_range.mp hk))]
  congr 1
  apply List.ext_getElem
  · simp
  · intro j h1 h2
    have hj : j < array.length := by simpa using h1
    rw [List.getElem_map, List.getElem_map, List.getElem_range,
      List.getD_eq_getElem array [] hj]

/-- C2 witness: the round-trip instantiated at a concrete 2x3 `UnsignedShort`
array and the two-descriptor covering set, for its first descriptor. -/
theorem C2_encode_decode_roundtrip_witness :
    geom.iterAttr
      { name := "a", vertexBaseType := BaseType.UnsignedShort, vertexSize := 2,
        byteStride := ([[1, 2, 3], [4, 5, 6]].headD []).length *
          BaseType.width .UnsignedShort,
        byteOffset := 0 * BaseType.width .UnsignedShort, count := 2,
        bufferData := [[1, 2, 3], [4, 5, 6]].flatten.flatMap
          (leBytes (BaseType.width .UnsignedShort)) } =
      ([[1, 2], [4, 5]], none) :=
  (C2_encode_decode_roundtrip [[1, 2, 3], [4, 5, 6]] .UnsignedShort
      [⟨"a", 0, 2⟩, ⟨"b", 2, 1⟩]
      (by decide) (by decide) (by decide) (by decide) (by decide)).2
    ⟨"a", 0, 2⟩ (by decide)

/-- C6: the two decoders agree on every attribute with a non-zero vertex
size (both also substitute the base-type width for a zero byte stride); for a
zero vertex size `geom.iterAttr` decodes 1 component per element while
`geomview.iterAttr` decodes `width(baseType)` components, so whenever the
width exceeds 1 (and at least the first element is in bounds so that a tuple
is actually produced) the two runs differ. -/
theorem C6_decoder_equivalence :
    (∀ att : Attr, att.vertexSize ≠ 0 → geom.iterAttr att = geomview.iterAttr att) ∧
    (∀ att : Attr, att.vertexSize = 0 → 1 < att.vertexBaseType.width →
      0 < att.count →
      att.byteOffset + att.vertexBaseType.width * att.vertexBaseType.width ≤
        att.bufferData.length →
      geom.iterAttr att ≠ geomview.iterAttr att) := by
  constructor
  · intro att hvs
    unfold geom.iterAttr geomview.iterAttr
    have heq : datumGeom att.bufferData att.vertexBaseType.width (effVsGeom att) =
        datumView att.bufferData att.vertexBaseType.width (effVsView att) := by
      have h1 : effVsGeom att = att.vertexSize := by unfold effVsGeom; simp [hvs]
      have h2 : effVsView att = att.vertexSize := by unfold effVsView; simp [hvs]
      rw [h1, h2]
      funext i
      exact datumGeom_eq_datumView _ _ att.vertexBaseType.width_pos _ i
    rw [heq]
  · intro att hvs0 hw2 hcnt hbound heq
    have hw : 0 < att.vertexBaseType.width := att.vertexBaseType.width_pos
    have h1 : effVsGeom att = 1 := by unfold effVsGeom; simp [hvs0]
    have h2 : effVsView att = att.vertexBaseType.width := by
      unfold effVsView; simp [hvs0]
    obtain ⟨c, hc⟩ : ∃ c, att.count = c + 1 := ⟨att.count - 1, by omega⟩
    have hidx : attrIndices att =
        att.byteOffset :: (List.range c).map
          (fun k => att.byteOffset + (k + 1) * effStride att) := by
      unfold attrIndices
      rw [hc, List.range_succ_eq_map]
      simp [List.map_map, Function.comp]
    have hww : att.vertexBaseType.width ≤
        att.vertexBaseType.width * att.vertexBaseType.width :=
      Nat.le_mul_of_pos_left _ hw
    have hG : ∃ dg, datumGeom att.bufferData att.vertexBaseType.width (effVsGeom att)
        att.byteOffset = .ok dg ∧ dg.length = 1 := by
      rw [h1]
      unfold datumGeom
      rw [if_pos (by simp only [List.length_take, List.length_drop]; omega)]
      exact ⟨_, rfl, by simp⟩
    obtain ⟨dg, hG1, hG2⟩ := hG
    have hV : ∃ dv, datumView att.bufferData att.vertexBaseType.width
        (effVsView att) att.byteOffset = .ok dv ∧
        dv.length = att.vertexBaseType.width := by
      rw [h2]
      unfold datumView
      rw [datumViewAux_eq]
      rw [if_pos ?_]
      · exact ⟨_, rfl, by simp⟩
      · intro j hj
        have hj' : j + 1 ≤ att.vertexBaseType.width := List.mem_range.mp hj
        have hmul : (j + 1) * att.vertexBaseType.width ≤
            att.vertexBaseType.width * att.vertexBaseType.width :=
          Nat.mul_le_mul_right _ hj'
        have hjw : j * att.vertexBaseType.width + att.vertexBaseType.width =
            (j + 1) * att.vertexBaseType.width := by ring
        simp only [List.length_take, List.length_drop]
        omega
    obtain ⟨dv, hV1, hV2⟩ := hV
    have hGrun : geom.iterAttr att =
        ((dg :: (runAttr
          (datumGeom att.bufferData att.vertexBaseType.width (effVsGeom att))
          ((List.range c).map
            (fun k => att.byteOffset + (k + 1) * effStride att))).1),
         (runAttr
          (datumGeom att.bufferData att.vertexBaseType.width (effVsGeom att))
          ((List.range c).map
            (fun k => att.byteOffset + (k + 1) * effStride att))).2) := by
      unfold geom.iterAttr
      rw [hidx]
      exact runAttr_cons_ok _ _ _ _ hG1
    have hVrun : geomview.iterAttr att =
        ((dv :: (runAttr
          (datumView att.bufferData att.vertexBaseType.width (effVsView att))
          ((List.range c).map
            (fun k => att.byteOffset + (k + 1) * effStride att))).1),
         (runAttr
          (datumView att.bufferData att.vertexBaseType.width (effVsView att))
          ((List.range c).map
            (fun k => att.byteOffset + (k + 1) * effStride att))).2) := by
      unfold geomview.iterAttr
      rw [hidx]
      exact runAttr_cons_ok _ _ _ _ hV1
    rw [hGrun, hVrun] at heq
    have hfst := congrArg Prod.fst heq
    simp only [] at hfst
    have hhead := (List.cons.injEq _ _ _ _).mp hfst
    have hlen := congrArg List.length hhead.1
    rw [hG2, hV2] at hlen
    omega

/-- C6 witness: the equal-run half instantiated at a one-component
`UnsignedShort` attribute, and the diverging half at a zero-vertex-size
`UnsignedShort` attribute whose first element is in bounds. -/
theorem C6_decoder_equivalence_witness :
    geom.iterAttr ⟨"v", .UnsignedShort, 0, 2, 2, 1, [1, 0, 2, 0]⟩ =
      geomview.iterAttr ⟨"v", .UnsignedShort, 0, 2, 2, 1, [1, 0, 2, 0]⟩ ∧
    geom.iterAttr ⟨"i", .UnsignedShort, 0, 0, 2, 0, [7, 0, 9, 0]⟩ ≠
      geomview.iterAttr ⟨"i", .UnsignedShort, 0, 0, 2, 0, [7, 0, 9, 0]⟩ :=
  ⟨C6_decoder_equivalence.1 _ (by decide),
   C6_decoder_equivalence.2 _ (by decide) (by decide) (by decide) (by decide)⟩

/-- C8: `AABB.iterCorners` yields exactly 8 points, in the fixed order of all
combinations of min/max x, y, z with x varying slowest and z fastest; and
rebuilding a bounding box from those 8 corners reproduces the original `min`
and `max` (for any box whose `min` is componentwise at most its `max`, the
invariant every constructed box satisfies). -/
theorem C8_corners_roundtrip (b : AABB)
    (hx : b.min.x ≤ b.max.x) (hy : b.min.y ≤ b.max.y) (hz : b.min.z ≤ b.max.z) :
    b.iterCorners.length = 8 ∧
    b.iterCorners =
      [⟨b.min.x, b.min.y, b.min.z⟩, ⟨b.min.x, b.min.y, b.max.z⟩,
       ⟨b.min.x, b.max.y, b.min.z⟩, ⟨b.min.x, b.max.y, b.max.z⟩,
       ⟨b.max.x, b.min.y, b.min.z⟩, ⟨b.max.x, b.min.y, b.max.z⟩,
       ⟨b.max.x, b.max.y, b.min.z⟩, ⟨b.max.x, b.max.y, b.max.z⟩] ∧
    (∃ b', AABB.ofPoints b.iterCorners = .ok b' ∧
      b'.min = b.min ∧ b'.max = b.max) := by
  refine ⟨rfl, rfl, ⟨_, rfl, ?_, ?_⟩⟩ <;>
  · apply Vec3.ext <;>
      simp [AABB.ofPoints, AABB.iterCorners, foldMinMax, min_self, max_self,
        min_eq_left hx, min_eq_left hy, min_eq_left hz,
        max_eq_right hx, max_eq_right hy, max_eq_right hz,
        max_eq_left hx, max_eq_left hy, max_eq_left hz]

/-- C8 witness: instantiation at a concrete proper box. -/
theorem C8_corners_roundtrip_witness :
    (AABB.mk ⟨0, 1, 2⟩ ⟨3, 4, 5⟩ ⟨0, 0, 0⟩).iterCorners.length = 8 := by
  exact (C8_corners_roundtrip ⟨⟨0, 1, 2⟩, ⟨3, 4, 5⟩, ⟨0, 0, 0⟩⟩
    (by norm_num) (by norm_num) (by norm_num)).1

/-- C9: `grouper([1,2,3,4,5], 2)` yields `(1,2), (3,4), (5, PAD)` in the
`geom` implementation (zip-longest padding with the `None` sentinel), while
the `geomview` implementation yields the final short group `[5]` unpadded. -/
theorem C9_grouper_padding :
    geom.grouper [1, 2, 3, 4, 5] 2 =
      [[some 1, some 2], [some 3, some 4], [some 5, none]] ∧
    geomview.grouper [1, 2, 3, 4, 5] 2 = [[1, 2], [3, 4], [5]] := by
  constructor
  · simp [geom_grouper_cons, geom_grouper_nil]
  · simp [geomview_grouper_cons, geomview_grouper_nil]

/-- C3 counterexample: the claim says both bounding-box implementations fail
with `EmptyInputError` on the empty point sequence and never return a zero
box; but `geomview.compute_AABB` on the empty sequence returns exactly the
zero box `(origin, origin)` and raises nothing. -/
theorem C3_counterexample :
    geomview.compute_AABB [] = (⟨0, 0, 0⟩, ⟨0, 0, 0⟩) := rfl

/-- C3 (amended): on the empty point sequence `geom.AABB.__init__` does fail
and never produces a box — but via the host-language `StopIteration` escaping
`next(it)`, not an `EmptyInputError` — while `geomview.compute_AABB` does not
fail at all and silently returns the zero box `(origin, origin)`. -/
theorem C3_empty_input :
    AABB.ofPoints [] = .error .stopIteration ∧
    AABB.ofPoints [] ≠ .error .emptyInputError ∧
    (∀ b : AABB, AABB.ofPoints [] ≠ .ok b) ∧
    geomview.compute_AABB [] = (⟨0, 0, 0⟩, ⟨0, 0, 0⟩) := by
  refine ⟨rfl, ?_, fun b => by simp [AABB.ofPoints], rfl⟩
  rw [show AABB.ofPoints [] = .error .stopIteration from rfl]
  simp

/-- C10: `geomview.compute_AABB` initializes both accumulators to the zero
vector, so for every input the returned minimums are `≤ 0` and maximums
`≥ 0` componentwise (the box always contains the origin); consequently for a
point set with all coordinates strictly positive, every returned minimum is
strictly below every point's coordinates, so the box is strictly larger than
the minimal axis-aligned bounding box of the points. -/
theorem C10_compute_AABB_contains_origin (pts : List Vec3) :
    ((geomview.compute_AABB pts).1.x ≤ 0 ∧
     (geomview.compute_AABB pts).1.y ≤ 0 ∧
     (geomview.compute_AABB pts).1.z ≤ 0 ∧
     0 ≤ (geomview.compute_AABB pts).2.x ∧
     0 ≤ (geomview.compute_AABB pts).2.y ∧
     0 ≤ (geomview.compute_AABB pts).2.z) ∧
    ((∀ p ∈ pts, 0 < p.x ∧ 0 < p.y ∧ 0 < p.z) →
      ∀ p ∈ pts,
        (geomview.compute_AABB pts).1.x < p.x ∧
        (geomview.compute_AABB pts).1.y < p.y ∧
        (geomview.compute_AABB pts).1.z < p.z) := by
  have hx : (geomview.compute_AABB pts).1.x = (pts.map Vec3.x).foldl min 0 :=
    foldMinMax_fst_x pts _
  have hy : (geomview.compute_AABB pts).1.y = (pts.map Vec3.y).foldl min 0 :=
    foldMinMax_fst_y pts _
  have hz : (geomview.compute_AABB pts).1.z = (pts.map Vec3.z).foldl min 0 :=
    foldMinMax_fst_z pts _
  have hX : (geomview.compute_AABB pts).2.x = (pts.map Vec3.x).foldl max 0 :=
    foldMinMax_snd_x pts _
  have hY : (geomview.compute_AABB pts).2.y = (pts.map Vec3.y).foldl max 0 :=
    foldMinMax_snd_y pts _
  have hZ : (geomview.compute_AABB pts).2.z = (pts.map Vec3.z).foldl max 0 :=
    foldMinMax_snd_z pts _
  constructor
  · exact ⟨hx ▸ foldl_min_le_init _ 0, hy ▸ foldl_min_le_init _ 0,
      hz ▸ foldl_min_le_init _ 0, hX ▸ foldl_max_init_le _ 0,
      hY ▸ foldl_max_init_le _ 0, hZ ▸ foldl_max_init_le _ 0⟩
  · intro hpos p hp
    exact ⟨lt_of_le_of_lt (hx ▸ foldl_min_le_init _ 0) (hpos p hp).1,
      lt_of_le_of_lt (hy ▸ foldl_min_le_init _ 0) (hpos p hp).2.1,
      lt_of_le_of_lt (hz ▸ foldl_min_le_init _ 0) (hpos p hp).2.2⟩

/-- C10 witness: instantiation at a concrete one-point list strictly inside
the positive octant. -/
theorem C10_compute_AABB_contains_origin_witness :
    (geomview.compute_AABB [⟨1, 2, 3⟩]).1.x < 1 := by
  have h := (C10_compute_AABB_contains_origin [⟨1, 2, 3⟩]).2
    (by intro p hp; simp at hp; simp [hp]) ⟨1, 2, 3⟩ (by simp)
  exact h.1

/-- C1 counterexample: the claim says an out-of-range descriptor makes
`geom.iterAttr` fail with `OutOfBoundsError` before performing any read; but
on a 2-byte buffer with a descriptor asking for 3 one-byte elements the
decoder first yields the two in-bounds tuples (reads were performed) and then
dies with the host-language `struct.error` from `struct.unpack`, not with an
`OutOfBoundsError`. -/
theorem C1_counterexample :
    geom.iterAttr ⟨"idx", .UnsignedByte, 0, 1, 3, 1, [7, 9]⟩ =
      ([[7], [9]], some .structError) ∧
    (geom.iterAttr ⟨"idx", .UnsignedByte, 0, 1, 3, 1, [7, 9]⟩).2 ≠
      some .outOfBoundsError ∧
    (geom.iterAttr ⟨"idx", .UnsignedByte, 0, 1, 3, 1, [7, 9]⟩).1 ≠ [] := by
  refine ⟨by decide, by decide, by decide⟩

/-- C1 (amended): `geom.iterAttr` never accesses a byte outside the buffer
(Python slices truncate), but it performs no bounds check of its own: when the
descriptor's implied read range `byteOffset + k*effectiveStride +
width*componentCount` exceeds the buffer length for some `k < count`, the
iteration terminates in the host-language `struct.error` raised by
`struct.unpack` on the truncated slice — never in an `OutOfBoundsError`, and
only after yielding (hence reading) every fully in-bounds element before the
first short one. -/
theorem C1_out_of_range_is_struct_error (att : Attr)
    (h : ∃ k, k < att.count ∧
      att.bufferData.length <
        att.byteOffset + k * effStride att + att.vertexBaseType.width * effVsGeom att) :
    (geom.iterAttr att).2 = some .structError ∧
    (geom.iterAttr att).2 ≠ some .outOfBoundsError := by
  obtain ⟨k, hk, hlen⟩ := h
  have hw : 0 < att.vertexBaseType.width := att.vertexBaseType.width_pos
  have hvs : 0 < effVsGeom att := by
    unfold effVsGeom; split <;> omega
  have hmem : att.byteOffset + k * effStride att ∈ attrIndices att := by
    unfold attrIndices
    exact List.mem_map.mpr ⟨k, List.mem_range.mpr hk, rfl⟩
  have hwvpos : 0 < att.vertexBaseType.width * effVsGeom att := Nat.mul_pos hw hvs
  have herr : datumGeom att.bufferData att.vertexBaseType.width (effVsGeom att)
      (att.byteOffset + k * effStride att) = .error .structError := by
    unfold datumGeom
    have hshort :
        ((att.bufferData.drop (att.byteOffset + k * effStride att)).take
          (att.vertexBaseType.width * effVsGeom att)).length ≠
          att.vertexBaseType.width * effVsGeom att := by
      simp only [List.length_take, List.length_drop]
      generalize att.vertexBaseType.width * effVsGeom att = wv at hlen hwvpos ⊢
      generalize k * effStride att = ks at hlen ⊢
      omega
    simp only []
    rw [if_neg hshort]
  have hrun : geom.iterAttr att =
      runAttr (datumGeom att.bufferData att.vertexBaseType.width (effVsGeom att))
        (attrIndices att) := rfl
  have hne : (geom.iterAttr att).2 ≠ none := by
    rw [hrun]
    exact runAttr_snd_ne_none _ (attrIndices att) _ hmem _ herr
  have hcases := runAttr_snd_none_or_structError
    (datumGeom att.bufferData att.vertexBaseType.width (effVsGeom att))
    (fun i e he => datumGeom_error_eq _ _ _ _ _ he)
    (attrIndices att)
  rw [← hrun] at hcases
  rcases hcases with hc | hc
  · exact absurd hc hne
  · exact ⟨hc, by rw [hc]; decide⟩

/-- C1 witness: the amended statement instantiated at the concrete
counterexample attribute. -/
theorem C1_out_of_range_is_struct_error_witness :
    (geom.iterAttr ⟨"idx", .UnsignedByte, 0, 1, 3, 1, [7, 9]⟩).2 =
      some .structError ∧
    (geom.iterAttr ⟨"idx", .UnsignedByte, 0, 1, 3, 1, [7, 9]⟩).2 ≠
      some .outOfBoundsError :=
  C1_out_of_range_is_struct_error _ ⟨2, by decide, by decide⟩
